import Mathlib

/-!
# SimplNews: the expiring in-memory cache

A shallow embedding of `internal/repository/cache/memory_cache.go`.

* Instants of `time.Time` and `time.Duration` values are integers (nanoseconds on one
  time line); `t.Add(d)` is `t + d` and `t.After(u)` is the strict comparison `u < t`.
* A Go `interface{}` value is an `Option α`: `none` is the nil interface.
* `sync.Map` is an association list from keys to entries. `Load` returns the first
  binding of a key, `Store` and `Delete` drop every binding of the key, so a map built
  from the empty one never holds a key twice. `Range` walks the keys present when it
  starts, reloads each one and skips those deleted meanwhile.
* The field `mu sync.RWMutex` of `MemoryCache` is never locked by any method; it
  carries no behaviour and is left out.
-/

namespace cache

/-- The Go method `Time.Add`: the instant `d` after `t`. -/
def Add (t d : Int) : Int := t + d

/-- The Go method `Time.After`: `After t u` reports whether `t` is strictly after `u`. -/
def After (t u : Int) : Bool := decide (u < t)

/-- The struct `CacheEntry`: a stored value and its absolute expiry instant. -/
structure CacheEntry (α : Type) where
  Value : Option α
  ExpiresAt : Int
deriving DecidableEq

/-- The contents of a `sync.Map` from string keys to cache entries. -/
abbrev SyncMap (α : Type) := List (String × CacheEntry α)

/-- The method `sync.Map.Load`: the entry bound to `key`, if any. -/
def SyncMap.Load {α : Type} : SyncMap α → String → Option (CacheEntry α)
  | [], _ => none
  | (k, e) :: rest, key => if k = key then some e else SyncMap.Load rest key

/-- The method `sync.Map.Delete`: removes the binding of `key`. -/
def SyncMap.Delete {α : Type} (m : SyncMap α) (key : String) : SyncMap α :=
  m.filter (fun p => decide (p.1 ≠ key))

/-- The method `sync.Map.Store`: binds `key` to `e`, replacing an earlier binding. -/
def SyncMap.Store {α : Type} (m : SyncMap α) (key : String) (e : CacheEntry α) : SyncMap α :=
  (key, e) :: SyncMap.Delete m key

/-- The loop of `sync.Map.Range` over the keys `ks` that were present when the call
started. The callback `f` runs on a state `σ` that contains the map (`view`), so it may
change the map it is ranging over; a key whose binding is gone when its turn comes is
skipped, and the loop stops when `f` answers `false`. -/
def SyncMap.rangeLoop {α σ : Type} (view : σ → SyncMap α)
    (f : String → CacheEntry α → σ → σ × Bool) : List String → σ → σ
  | [], s => s
  | k :: ks, s =>
    match SyncMap.Load (view s) k with
    | none => SyncMap.rangeLoop view f ks s
    | some e =>
      let r := f k e s
      if r.2 then SyncMap.rangeLoop view f ks r.1 else r.1

/-- The method `sync.Map.Range`: calls `f` for each key and value present in the map. -/
def SyncMap.Range {α σ : Type} (view : σ → SyncMap α)
    (f : String → CacheEntry α → σ → σ × Bool) (s : σ) : σ :=
  SyncMap.rangeLoop view f ((view s).map Prod.fst) s

/-- The struct `MemoryCache`. -/
structure MemoryCache (α : Type) where
  data : SyncMap α
deriving DecidableEq

/-- The constructor `NewMemoryCache`: a cache with no entries. -/
def NewMemoryCache {α : Type} : MemoryCache α := ⟨[]⟩

/-- The method `MemoryCache.Set`; `now` is the reading of `time.Now()`. -/
def MemoryCache.Set {α : Type} (c : MemoryCache α) (key : String) (value : Option α)
    (ttl : Int) (now : Int) : MemoryCache α :=
  let expiresAt := Add now ttl
  let entry : CacheEntry α := { Value := value, ExpiresAt := expiresAt }
  ⟨SyncMap.Store c.data key entry⟩

/-- The method `MemoryCache.Get`; `now` is the reading of `time.Now()` taken after the
load. The result is the returned pair `(value, found)` and the cache afterwards. -/
def MemoryCache.Get {α : Type} (c : MemoryCache α) (key : String) (now : Int) :
    (Option α × Bool) × MemoryCache α :=
  match SyncMap.Load c.data key with
  | none => ((none, false), c)
  | some entry =>
    if After now entry.ExpiresAt then
      ((none, false), ⟨SyncMap.Delete c.data key⟩)
    else
      ((entry.Value, true), c)

/-- The method `MemoryCache.Delete`. -/
def MemoryCache.Delete {α : Type} (c : MemoryCache α) (key : String) : MemoryCache α :=
  ⟨SyncMap.Delete c.data key⟩

/-- The method `MemoryCache.Clear`: ranges over the map and deletes each visited key. -/
def MemoryCache.Clear {α : Type} (c : MemoryCache α) : MemoryCache α :=
  SyncMap.Range MemoryCache.data
    (fun key _ s => (⟨SyncMap.Delete s.data key⟩, true)) c

/-- The method `MemoryCache.CleanupExpired`. The callback reads `time.Now()` once for
every visited entry: `clock i` is the reading of the `i`-th call, and the state of the
loop is the cache together with the number of readings taken so far. -/
def MemoryCache.CleanupExpired {α : Type} (c : MemoryCache α) (clock : Nat → Int) :
    MemoryCache α :=
  (SyncMap.Range (fun s : MemoryCache α × Nat => s.1.data)
    (fun key entry s =>
      if After (clock s.2) entry.ExpiresAt then
        ((⟨SyncMap.Delete s.1.data key⟩, s.2 + 1), true)
      else
        ((s.1, s.2 + 1), true)) (c, 0)).1

/-! ## Sequences of calls -/

/-- One call of a method of the cache, together with the clock readings it takes. -/
inductive Op (α : Type) where
  | set (key : String) (value : Option α) (ttl : Int) (now : Int)
  | get (key : String) (now : Int)
  | delete (key : String)
  | clear
  | cleanupExpired (clock : Nat → Int)

/-- The cache after one call. -/
def Op.apply {α : Type} : Op α → MemoryCache α → MemoryCache α
  | .set key value ttl now, c => c.Set key value ttl now
  | .get key now, c => (c.Get key now).2
  | .delete key, c => c.Delete key
  | .clear, c => c.Clear
  | .cleanupExpired clock, c => c.CleanupExpired clock

/-- Whether a call is an operation on key `k`: a `Set`, `Get` or `Delete` of `k`, or one
of the two calls that range over every key. -/
def Op.onKey {α : Type} (k : String) : Op α → Bool
  | .set key _ _ _ => decide (key = k)
  | .get key _ => decide (key = k)
  | .delete key => decide (key = k)
  | .clear => true
  | .cleanupExpired _ => true

/-- The cache after a sequence of calls, first call first. -/
def runOps {α : Type} (ops : List (Op α)) (c : MemoryCache α) : MemoryCache α :=
  ops.foldl (fun c op => op.apply c) c

/-- The arguments of one call of `Set` and the clock reading it takes. -/
structure SetArgs (α : Type) where
  key : String
  value : Option α
  ttl : Int
  now : Int

/-- The cache after a sequence of `Set` calls, first call first. -/
def setAll {α : Type} (calls : List (SetArgs α)) (c : MemoryCache α) : MemoryCache α :=
  calls.foldl (fun c a => c.Set a.key a.value a.ttl a.now) c

/-! ## Two calls running concurrently

Every `sync.Map` method is atomic, the methods of `MemoryCache` take no lock, so a call
of `Get` or `Set` is a sequence of steps between which another goroutine may run. -/

/-- The position of a running `Get`: before `c.data.Load`, before the expiry test on the
loaded entry, before `c.data.Delete`, or returned with `(value, found)`. -/
inductive GetPc (α : Type) where
  | load
  | check (entry : CacheEntry α)
  | evict
  | ret (value : Option α) (found : Bool)
deriving DecidableEq

/-- One step of a running `Get(key)` on the shared map; `now` is the reading of
`time.Now()` if the step takes one. -/
def GetPc.step {α : Type} (key : String) (now : Int) :
    GetPc α → SyncMap α → GetPc α × SyncMap α
  | .load, m =>
    match SyncMap.Load m key with
    | none => (.ret none false, m)
    | some entry => (.check entry, m)
  | .check entry, m =>
    if After now entry.ExpiresAt then (.evict, m) else (.ret entry.Value true, m)
  | .evict, m => (.ret none false, SyncMap.Delete m key)
  | .ret value found, m => (.ret value found, m)

/-- The position of a running `Set`: before `time.Now().Add(ttl)`, before
`c.data.Store` of the built entry, or returned. -/
inductive SetPc (α : Type) where
  | now
  | store (entry : CacheEntry α)
  | ret
deriving DecidableEq

/-- One step of a running `Set(key, value, ttl)` on the shared map. -/
def SetPc.step {α : Type} (key : String) (value : Option α) (ttl : Int) (now : Int) :
    SetPc α → SyncMap α → SetPc α × SyncMap α
  | .now, m => (.store { Value := value, ExpiresAt := Add now ttl }, m)
  | .store entry, m => (.ret, SyncMap.Store m key entry)
  | .ret, m => (.ret, m)

/-- The goroutine that moves next. -/
inductive Tid where
  | getter
  | setter
deriving DecidableEq

/-- A `Get(key)` and a `Set(key, value, ttl)` running on one shared map. -/
structure Race (α : Type) where
  key : String
  value : Option α
  ttl : Int
  data : SyncMap α
  getPc : GetPc α
  setPc : SetPc α
deriving DecidableEq

/-- One scheduling step: goroutine `t` takes its next step with clock reading `now`. -/
def Race.step {α : Type} (r : Race α) (t : Tid) (now : Int) : Race α :=
  match t with
  | .getter =>
    let x := GetPc.step r.key now r.getPc r.data
    { r with getPc := x.1, data := x.2 }
  | .setter =>
    let x := SetPc.step r.key r.value r.ttl now r.setPc r.data
    { r with setPc := x.1, data := x.2 }

/-- The state after a schedule, a list of goroutines with the clock reading of each step. -/
def Race.run {α : Type} (r : Race α) (schedule : List (Tid × Int)) : Race α :=
  schedule.foldl (fun r x => r.step x.1 x.2) r

/-! ## The map operations -/

theorem SyncMap.Load_Delete {α : Type} (m : SyncMap α) (k k' : String) :
    SyncMap.Load (SyncMap.Delete m k) k' = if k' = k then none else SyncMap.Load m k' := by
  induction m with
  | nil => simp [SyncMap.Delete, SyncMap.Load]
  | cons p m ih =>
    obtain ⟨a, e⟩ := p
    unfold SyncMap.Delete at ih ⊢
    by_cases h : a = k
    · subst h
      by_cases h' : k' = a
      · subst h'
        simpa [List.filter_cons, SyncMap.Load] using ih
      · have h'' : ¬ a = k' := fun x => h' x.symm
        simpa [List.filter_cons, SyncMap.Load, h', h''] using ih
    · by_cases h' : a = k'
      · subst h'
        simp [List.filter_cons, SyncMap.Load, h]
      · simpa [List.filter_cons, SyncMap.Load, h, h'] using ih

theorem SyncMap.Load_Store {α : Type} (m : SyncMap α) (k k' : String) (e : CacheEntry α) :
    SyncMap.Load (SyncMap.Store m k e) k' = if k' = k then some e else SyncMap.Load m k' := by
  unfold SyncMap.Store
  by_cases h : k = k'
  · subst h
    simp [SyncMap.Load]
  · have h' : ¬ k' = k := fun x => h x.symm
    simp [SyncMap.Load, h, h', SyncMap.Load_Delete]

theorem SyncMap.Load_eq_none_iff {α : Type} (m : SyncMap α) (k : String) :
    SyncMap.Load m k = none ↔ ∀ p ∈ m, p.1 ≠ k := by
  induction m with
  | nil => simp [SyncMap.Load]
  | cons p m ih =>
    obtain ⟨a, e⟩ := p
    by_cases h : a = k
    · simp [SyncMap.Load, h]
    · simp [SyncMap.Load, h, ih]

theorem SyncMap.Delete_of_Load_none {α : Type} (m : SyncMap α) (k : String)
    (h : SyncMap.Load m k = none) : SyncMap.Delete m k = m := by
  rw [SyncMap.Load_eq_none_iff] at h
  unfold SyncMap.Delete
  rw [List.filter_eq_self]
  intro p hp
  simpa using h p hp

theorem SyncMap.Delete_Delete {α : Type} (m : SyncMap α) (k : String) :
    SyncMap.Delete (SyncMap.Delete m k) k = SyncMap.Delete m k := by
  apply SyncMap.Delete_of_Load_none
  simp [SyncMap.Load_Delete]

theorem SyncMap.filter_key_Delete {α : Type} (m : SyncMap α) (k : String) :
    (SyncMap.Delete m k).filter (fun p => decide (p.1 = k)) = [] := by
  unfold SyncMap.Delete
  rw [List.filter_filter, List.filter_eq_nil_iff]
  intro p _
  by_cases h : p.1 = k <;> simp [h]

/-! ## The calls run one after another -/

theorem MemoryCache.Get_of_Load_none {α : Type} (c : MemoryCache α) (k : String) (now : Int)
    (h : SyncMap.Load c.data k = none) : c.Get k now = ((none, false), c) := by
  simp [MemoryCache.Get, h]

theorem MemoryCache.Get_of_expired {α : Type} (c : MemoryCache α) (k : String) (now : Int)
    (e : CacheEntry α) (h : SyncMap.Load c.data k = some e) (hx : e.ExpiresAt < now) :
    c.Get k now = ((none, false), ⟨SyncMap.Delete c.data k⟩) := by
  simp [MemoryCache.Get, h, After, hx]

theorem MemoryCache.Get_of_valid {α : Type} (c : MemoryCache α) (k : String) (now : Int)
    (e : CacheEntry α) (h : SyncMap.Load c.data k = some e) (hx : now ≤ e.ExpiresAt) :
    c.Get k now = ((e.Value, true), c) := by
  have : ¬ e.ExpiresAt < now := not_lt.mpr hx
  simp [MemoryCache.Get, h, After, this]

theorem MemoryCache.Load_Set {α : Type} (c : MemoryCache α) (k k' : String) (v : Option α)
    (ttl now : Int) :
    SyncMap.Load (c.Set k v ttl now).data k' =
      if k' = k then some ⟨v, now + ttl⟩ else SyncMap.Load c.data k' := by
  simp [MemoryCache.Set, SyncMap.Load_Store, Add]

theorem MemoryCache.Load_Get {α : Type} (c : MemoryCache α) (k k' : String) (now : Int)
    (h : k' ≠ k) : SyncMap.Load (c.Get k now).2.data k' = SyncMap.Load c.data k' := by
  unfold MemoryCache.Get
  split
  · rfl
  · split
    · simp [SyncMap.Load_Delete, h]
    · rfl

theorem Op.Load_apply {α : Type} (op : Op α) (c : MemoryCache α) (k : String)
    (h : op.onKey k = false) : SyncMap.Load (op.apply c).data k = SyncMap.Load c.data k := by
  cases op with
  | set key value ttl now =>
    have hk : ¬ k = key := by
      intro x
      simp [Op.onKey, x] at h
    simp [Op.apply, MemoryCache.Load_Set, hk]
  | get key now =>
    have hk : k ≠ key := by
      intro x
      simp [Op.onKey, x] at h
    exact MemoryCache.Load_Get c key k now hk
  | delete key =>
    have hk : ¬ k = key := by
      intro x
      simp [Op.onKey, x] at h
    simp [Op.apply, MemoryCache.Delete, SyncMap.Load_Delete, hk]
  | clear => simp [Op.onKey] at h
  | cleanupExpired clock => simp [Op.onKey] at h

theorem runOps_Load {α : Type} (ops : List (Op α)) (c : MemoryCache α) (k : String)
    (h : ∀ op ∈ ops, op.onKey k = false) :
    SyncMap.Load (runOps ops c).data k = SyncMap.Load c.data k := by
  induction ops generalizing c with
  | nil => rfl
  | cons op ops ih =>
    have h1 : op.onKey k = false := h op (List.mem_cons_self _ _)
    have h2 : ∀ o ∈ ops, o.onKey k = false := fun o ho => h o (List.mem_cons_of_mem _ ho)
    show SyncMap.Load (runOps ops (op.apply c)).data k = _
    rw [ih (op.apply c) h2, Op.Load_apply op c k h1]

/-! ## Ranging over the map -/

/-- A relation that is reflexive, transitive and respected by every call of the callback
relates the state before a `Range` loop to the state after it. -/
theorem SyncMap.rangeLoop_rel {α σ : Type} (view : σ → SyncMap α)
    (f : String → CacheEntry α → σ → σ × Bool) (R : σ → σ → Prop)
    (hrefl : ∀ s, R s s) (htrans : ∀ a b c, R a b → R b c → R a c)
    (hf : ∀ k e s, SyncMap.Load (view s) k = some e → R s (f k e s).1) :
    ∀ ks s, R s (SyncMap.rangeLoop view f ks s) := by
  intro ks
  induction ks with
  | nil => intro s; exact hrefl s
  | cons k ks ih =>
    intro s
    unfold SyncMap.rangeLoop
    split
    · exact ih s
    · rename_i e he
      simp only
      split
      · exact htrans _ _ _ (hf k e s he) (ih _)
      · exact hf k e s he

theorem SyncMap.mem_keys_of_Load {α : Type} (m : SyncMap α) (k : String) (e : CacheEntry α)
    (h : SyncMap.Load m k = some e) : k ∈ m.map Prod.fst := by
  by_contra hk
  have : SyncMap.Load m k = none := by
    rw [SyncMap.Load_eq_none_iff]
    intro p hp hpk
    exact hk (List.mem_map.mpr ⟨p, hp, hpk⟩)
  rw [this] at h
  cases h

theorem MemoryCache.clearLoop_data {α : Type} (ks : List String) (c : MemoryCache α) :
    (SyncMap.rangeLoop MemoryCache.data
      (fun key _ s => ((⟨SyncMap.Delete s.data key⟩ : MemoryCache α), true)) ks c).data
      = c.data.filter (fun p => decide (p.1 ∉ ks)) := by
  induction ks generalizing c with
  | nil => simp [SyncMap.rangeLoop]
  | cons k ks ih =>
    unfold SyncMap.rangeLoop
    split
    · rename_i hnone
      rw [ih c]
      rw [SyncMap.Load_eq_none_iff] at hnone
      apply List.filter_congr
      intro p hp
      have := hnone p hp
      simp [this]
    · simp only [if_true]
      rw [ih]
      simp only [SyncMap.Delete, List.filter_filter]
      apply List.filter_congr
      intro p _
      by_cases h : p.1 = k <;> simp [h]

theorem MemoryCache.Clear_data {α : Type} (c : MemoryCache α) : c.Clear.data = [] := by
  unfold MemoryCache.Clear SyncMap.Range
  rw [MemoryCache.clearLoop_data, List.filter_eq_nil_iff]
  intro p hp
  have : p.1 ∈ List.map Prod.fst c.data := List.mem_map.mpr ⟨p, hp, rfl⟩
  simp [this]

/-- The sweep keeps or removes bindings, it never changes one: a binding found after
`CleanupExpired` was there before, whatever the clock readings. -/
theorem MemoryCache.Load_CleanupExpired_sub {α : Type} (c : MemoryCache α) (clock : Nat → Int)
    (k : String) (e : CacheEntry α)
    (h : SyncMap.Load (c.CleanupExpired clock).data k = some e) :
    SyncMap.Load c.data k = some e := by
  unfold MemoryCache.CleanupExpired SyncMap.Range at h
  refine SyncMap.rangeLoop_rel (fun s : MemoryCache α × Nat => s.1.data) _
    (fun s s' => SyncMap.Load s'.1.data k = some e → SyncMap.Load s.1.data k = some e)
    (fun _ x => x) (fun _ _ _ hab hbc x => hab (hbc x)) ?_ _ (c, 0) h
  intro k0 e0 s _ hx
  by_cases hexp : After (clock s.2) e0.ExpiresAt = true
  · simp only [hexp, if_true] at hx
    rw [SyncMap.Load_Delete] at hx
    by_cases hk : k = k0
    · simp [hk] at hx
    · simpa [hk] using hx
  · simpa [hexp] using hx

/-- A binding that is not expired at any reading the sweep takes survives it. -/
theorem MemoryCache.Load_CleanupExpired_kept {α : Type} (c : MemoryCache α)
    (clock : Nat → Int) (k : String) (e : CacheEntry α)
    (h : SyncMap.Load c.data k = some e) (hv : ∀ i, clock i ≤ e.ExpiresAt) :
    SyncMap.Load (c.CleanupExpired clock).data k = some e := by
  unfold MemoryCache.CleanupExpired SyncMap.Range
  refine SyncMap.rangeLoop_rel (fun s : MemoryCache α × Nat => s.1.data) _
    (fun s s' => SyncMap.Load s.1.data k = some e → SyncMap.Load s'.1.data k = some e)
    (fun _ x => x) (fun _ _ _ hab hbc x => hbc (hab x)) ?_ _ (c, 0) h
  intro k0 e0 s h0 hx
  by_cases hk : k = k0
  · subst hk
    rw [hx] at h0
    cases h0
    have : ¬ e.ExpiresAt < clock s.2 := not_lt.mpr (hv s.2)
    simpa [After, this] using hx
  · by_cases hexp : After (clock s.2) e0.ExpiresAt = true
    · simp only [hexp, if_true]
      rw [SyncMap.Load_Delete]
      simpa [hk] using hx
    · simpa [hexp] using hx

theorem MemoryCache.cleanupLoop_removed {α : Type} (clock : Nat → Int) (k : String)
    (ks : List String) (s : MemoryCache α × Nat)
    (hin : SyncMap.Load s.1.data k = none ∨ k ∈ ks)
    (hx : ∀ e i, SyncMap.Load s.1.data k = some e → e.ExpiresAt < clock i) :
    SyncMap.Load (SyncMap.rangeLoop (fun s : MemoryCache α × Nat => s.1.data)
      (fun key entry s =>
        if After (clock s.2) entry.ExpiresAt then
          ((⟨SyncMap.Delete s.1.data key⟩, s.2 + 1), true)
        else
          ((s.1, s.2 + 1), true)) ks s).1.data k = none := by
  induction ks generalizing s with
  | nil =>
    rcases hin with h | h
    · simpa [SyncMap.rangeLoop] using h
    · cases h
  | cons k0 ks ih =>
    unfold SyncMap.rangeLoop
    split
    · rename_i hnone
      apply ih s _ hx
      rcases hin with h | h
      · exact Or.inl h
      · rcases List.mem_cons.mp h with h | h
        · subst h
          exact Or.inl hnone
        · exact Or.inr h
    · rename_i e0 he0
      by_cases hk : k = k0
      · subst hk
        have hexp : After (clock s.2) e0.ExpiresAt = true := by
          simpa [After] using hx e0 s.2 he0
        simp only [hexp, if_true]
        apply ih
        · left
          simp [SyncMap.Load_Delete]
        · intro e i h
          simp [SyncMap.Load_Delete] at h
      · have hin' : SyncMap.Load s.1.data k = none ∨ k ∈ ks := by
          rcases hin with h | h
          · exact Or.inl h
          · rcases List.mem_cons.mp h with h | h
            · exact absurd h hk
            · exact Or.inr h
        by_cases hexp : After (clock s.2) e0.ExpiresAt = true
        · simp only [hexp, if_true]
          apply ih
          · simpa [SyncMap.Load_Delete, hk] using hin'
          · intro e i h
            apply hx e i
            simpa [SyncMap.Load_Delete, hk] using h
        · simp only [hexp]
          exact ih _ hin' hx

/-- A binding that is expired at every reading the sweep takes is removed by it. -/
theorem MemoryCache.Load_CleanupExpired_removed {α : Type} (c : MemoryCache α)
    (clock : Nat → Int) (k : String) (e : CacheEntry α)
    (h : SyncMap.Load c.data k = some e) (hx : ∀ i, e.ExpiresAt < clock i) :
    SyncMap.Load (c.CleanupExpired clock).data k = none := by
  unfold MemoryCache.CleanupExpired SyncMap.Range
  apply MemoryCache.cleanupLoop_removed clock k _ (c, 0)
  · exact Or.inr (SyncMap.mem_keys_of_Load c.data k e h)
  · intro e' i h'
    rw [h] at h'
    cases h'
    exact hx i

/-- The sweep at one clock reading `now` keeps exactly the bindings that are not expired
at `now`. -/
theorem MemoryCache.Load_CleanupExpired_at {α : Type} (c : MemoryCache α) (now : Int)
    (k : String) :
    SyncMap.Load (c.CleanupExpired (fun _ => now)).data k
      = (SyncMap.Load c.data k).filter (fun e => !After now e.ExpiresAt) := by
  cases h : SyncMap.Load c.data k with
  | none =>
    cases h' : SyncMap.Load (c.CleanupExpired (fun _ => now)).data k with
    | none => rfl
    | some e' =>
      rw [MemoryCache.Load_CleanupExpired_sub c _ k e' h'] at h
      cases h
  | some e =>
    by_cases hexp : e.ExpiresAt < now
    · rw [MemoryCache.Load_CleanupExpired_removed c _ k e h (fun _ => hexp)]
      simp [Option.filter, After, hexp]
    · rw [MemoryCache.Load_CleanupExpired_kept c _ k e h (fun _ => not_lt.mp hexp)]
      simp [Option.filter, After, hexp]

/-- The sweep does not touch the binding of a key it does not visit. -/
theorem MemoryCache.cleanupLoop_Load_of_not_mem {α : Type} (clock : Nat → Int) (k : String)
    (ks : List String) (s : MemoryCache α × Nat) (hk : k ∉ ks) :
    SyncMap.Load (SyncMap.rangeLoop (fun s : MemoryCache α × Nat => s.1.data)
      (fun key entry s =>
        if After (clock s.2) entry.ExpiresAt then
          ((⟨SyncMap.Delete s.1.data key⟩, s.2 + 1), true)
        else
          ((s.1, s.2 + 1), true)) ks s).1.data k = SyncMap.Load s.1.data k := by
  induction ks generalizing s with
  | nil => simp [SyncMap.rangeLoop]
  | cons k0 ks ih =>
    have hk0 : ¬ k = k0 := fun x => hk (x ▸ List.mem_cons_self _ _)
    have hks : k ∉ ks := fun x => hk (List.mem_cons_of_mem _ x)
    unfold SyncMap.rangeLoop
    split
    · exact ih s hks
    · rename_i e0 _
      by_cases hexp : After (clock s.2) e0.ExpiresAt = true
      · simp only [hexp, if_true]
        rw [ih _ hks]
        simp [SyncMap.Load_Delete, hk0]
      · simp only [hexp]
        exact ih _ hks

theorem SyncMap.Load_of_mem_of_nodupKeys {α : Type} (m : SyncMap α)
    (h : (m.map Prod.fst).Nodup) (p : String × CacheEntry α) (hp : p ∈ m) :
    SyncMap.Load m p.1 = some p.2 := by
  induction m with
  | nil => cases hp
  | cons q m ih =>
    obtain ⟨a, e⟩ := q
    rw [List.map_cons, List.nodup_cons] at h
    rcases List.mem_cons.mp hp with hq | hq
    · subst hq
      simp [SyncMap.Load]
    · have hne : ¬ a = p.1 := by
        intro x
        exact h.1 (x ▸ List.mem_map.mpr ⟨p, hq, rfl⟩)
      simpa [SyncMap.Load, hne] using ih h.2 hq

/-- The sweep over the bindings `l`, all present in the map and with distinct keys:
the binding at position `i` is tested against the reading `clock (n + i)`, removed when
that reading is after its expiry and kept as it is otherwise. -/
theorem MemoryCache.cleanupLoop_exact {α : Type} (clock : Nat → Int) (l : SyncMap α)
    (hl : (l.map Prod.fst).Nodup) (d : SyncMap α) (n : Nat)
    (hd : ∀ p ∈ l, SyncMap.Load d p.1 = some p.2) (i : Nat) (h : i < l.length) :
    SyncMap.Load (SyncMap.rangeLoop (fun s : MemoryCache α × Nat => s.1.data)
      (fun key entry s =>
        if After (clock s.2) entry.ExpiresAt then
          ((⟨SyncMap.Delete s.1.data key⟩, s.2 + 1), true)
        else
          ((s.1, s.2 + 1), true)) (l.map Prod.fst) (⟨d⟩, n)).1.data (l.get ⟨i, h⟩).1
      = if After (clock (n + i)) (l.get ⟨i, h⟩).2.ExpiresAt then none
        else some (l.get ⟨i, h⟩).2 := by
  induction l generalizing d n i with
  | nil => simp at h
  | cons p l ih =>
    obtain ⟨k, e⟩ := p
    have hk : SyncMap.Load d k = some e := hd (k, e) (List.mem_cons_self _ _)
    rw [List.map_cons, List.nodup_cons] at hl
    rw [List.map_cons]
    unfold SyncMap.rangeLoop
    split
    · rename_i hnone
      simp only [hk] at hnone
      cases hnone
    · rename_i e0 he0
      simp only [hk] at he0
      cases he0
      have hd' : ∀ m : SyncMap α, (∀ k', k' ≠ k → SyncMap.Load m k' = SyncMap.Load d k') →
          ∀ p ∈ l, SyncMap.Load m p.1 = some p.2 := by
        intro m hm p hp
        have hne : p.1 ≠ k := by
          intro x
          exact hl.1 (x ▸ List.mem_map.mpr ⟨p, hp, rfl⟩)
        rw [hm p.1 hne]
        exact hd p (List.mem_cons_of_mem _ hp)
      by_cases hexp : After (clock n) e.ExpiresAt = true
      · simp only [hexp, if_true]
        cases i with
        | zero =>
          have key := MemoryCache.cleanupLoop_Load_of_not_mem clock k (l.map Prod.fst)
            ((⟨SyncMap.Delete d k⟩ : MemoryCache α), n + 1) hl.1
          have hdel : SyncMap.Load (SyncMap.Delete d k) k = none := by
            simp [SyncMap.Load_Delete]
          have rhs : (if After (clock n) e.ExpiresAt = true then none else some e)
              = (none : Option (CacheEntry α)) := if_pos hexp
          exact (key.trans hdel).trans rhs.symm
        | succ j =>
          have hj : j < l.length := by simpa using h
          have := ih hl.2 (SyncMap.Delete d k) (n + 1)
            (hd' _ (fun k' hk' => by simp [SyncMap.Load_Delete, hk'])) j hj
          simpa [Nat.add_assoc, Nat.add_comm 1 j] using this
      · simp only [hexp]
        cases i with
        | zero =>
          have key := MemoryCache.cleanupLoop_Load_of_not_mem clock k (l.map Prod.fst)
            ((⟨d⟩ : MemoryCache α), n + 1) hl.1
          have rhs : (if After (clock n) e.ExpiresAt = true then none else some e)
              = some e := if_neg hexp
          exact (key.trans hk).trans rhs.symm
        | succ j =>
          have hj : j < l.length := by simpa using h
          have := ih hl.2 d (n + 1) (hd' _ (fun _ _ => rfl)) j hj
          simpa [Nat.add_assoc, Nat.add_comm 1 j] using this

/-- The sweep of a cache with distinct keys, binding by binding: the `i`-th binding is
removed when the `i`-th clock reading is after its expiry and kept as it is otherwise. -/
theorem MemoryCache.Load_CleanupExpired_get {α : Type} (c : MemoryCache α) (clock : Nat → Int)
    (hc : (c.data.map Prod.fst).Nodup) (i : Nat) (h : i < c.data.length) :
    SyncMap.Load (c.CleanupExpired clock).data (c.data.get ⟨i, h⟩).1
      = if After (clock i) (c.data.get ⟨i, h⟩).2.ExpiresAt then none
        else some (c.data.get ⟨i, h⟩).2 := by
  have := MemoryCache.cleanupLoop_exact clock c.data hc c.data 0
    (fun p hp => SyncMap.Load_of_mem_of_nodupKeys c.data hc p hp) i h
  simpa [MemoryCache.CleanupExpired, SyncMap.Range] using this

/-! ## No key is bound twice -/

theorem SyncMap.Delete_nodupKeys {α : Type} (m : SyncMap α) (k : String)
    (h : (m.map Prod.fst).Nodup) : ((SyncMap.Delete m k).map Prod.fst).Nodup :=
  h.sublist ((List.filter_sublist m).map Prod.fst)

theorem SyncMap.Store_nodupKeys {α : Type} (m : SyncMap α) (k : String) (e : CacheEntry α)
    (h : (m.map Prod.fst).Nodup) : ((SyncMap.Store m k e).map Prod.fst).Nodup := by
  unfold SyncMap.Store
  rw [List.map_cons, List.nodup_cons]
  refine ⟨?_, SyncMap.Delete_nodupKeys m k h⟩
  intro hk
  obtain ⟨p, hp, hpk⟩ := List.mem_map.mp hk
  have := (List.mem_filter.mp hp).2
  simp [hpk] at this

/-- Every call keeps the keys of the map distinct, so every cache reached from
`NewMemoryCache` binds each key at most once. -/
theorem Op.apply_nodupKeys {α : Type} (op : Op α) (c : MemoryCache α)
    (h : (c.data.map Prod.fst).Nodup) : ((op.apply c).data.map Prod.fst).Nodup := by
  cases op with
  | set key value ttl now => exact SyncMap.Store_nodupKeys c.data key _ h
  | get key now =>
    show ((c.Get key now).2.data.map Prod.fst).Nodup
    unfold MemoryCache.Get
    split
    · exact h
    · split
      · exact SyncMap.Delete_nodupKeys c.data key h
      · exact h
  | delete key => exact SyncMap.Delete_nodupKeys c.data key h
  | clear =>
    show (c.Clear.data.map Prod.fst).Nodup
    rw [MemoryCache.Clear_data]
    exact List.nodup_nil
  | cleanupExpired clock =>
    show ((c.CleanupExpired clock).data.map Prod.fst).Nodup
    unfold MemoryCache.CleanupExpired SyncMap.Range
    refine SyncMap.rangeLoop_rel (fun s : MemoryCache α × Nat => s.1.data) _
      (fun s s' => (s.1.data.map Prod.fst).Nodup → (s'.1.data.map Prod.fst).Nodup)
      (fun _ x => x) (fun _ _ _ hab hbc x => hbc (hab x)) ?_ _ (c, 0) h
    intro k0 e0 s _ hx
    by_cases hexp : After (clock s.2) e0.ExpiresAt = true
    · simp only [hexp, if_true]
      exact SyncMap.Delete_nodupKeys s.1.data k0 hx
    · simpa [hexp] using hx

theorem runOps_nodupKeys {α : Type} (ops : List (Op α)) :
    ((runOps ops (NewMemoryCache : MemoryCache α)).data.map Prod.fst).Nodup := by
  have key : ∀ (ops : List (Op α)) (c : MemoryCache α), (c.data.map Prod.fst).Nodup →
      ((runOps ops c).data.map Prod.fst).Nodup := by
    intro ops
    induction ops with
    | nil => intro c h; exact h
    | cons op ops ih =>
      intro c h
      exact ih (op.apply c) (Op.apply_nodupKeys op c h)
  exact key ops NewMemoryCache List.nodup_nil

/-! ## The contract of the calls -/

/-- C1, as stated, fails: an entry read at exactly `now = expires_at` (here both are 10)
is returned as found and stays in the cache. -/
theorem Get_at_expiry_instant_is_found :
    SyncMap.Load (MemoryCache.mk [("k", (⟨some 7, 10⟩ : CacheEntry Nat))]).data "k"
        = some ⟨some 7, 10⟩
      ∧ (10 : Int) ≥ 10
      ∧ (MemoryCache.Get ⟨[("k", (⟨some 7, 10⟩ : CacheEntry Nat))]⟩ "k" 10).1 = (some 7, true)
      ∧ SyncMap.Load (MemoryCache.Get ⟨[("k", (⟨some 7, 10⟩ : CacheEntry Nat))]⟩ "k" 10).2.data "k"
        = some ⟨some 7, 10⟩ := by
  decide

/-- C1 (amended): `Get(k)` at time `now` returns not-found and leaves the cache as it is
when `k` is absent; returns not-found and removes `k`, and only `k`, when `k` is present
with `now` strictly after `expires_at`; returns `(stored value, true)` and leaves the
cache as it is when `k` is present with `now` at or before `expires_at`. -/
theorem Get_contract {α : Type} (c : MemoryCache α) (k : String) (now : Int) :
    (SyncMap.Load c.data k = none → c.Get k now = ((none, false), c))
    ∧ (∀ e, SyncMap.Load c.data k = some e → e.ExpiresAt < now →
        (c.Get k now).1 = (none, false)
        ∧ SyncMap.Load (c.Get k now).2.data k = none
        ∧ ∀ k', k' ≠ k → SyncMap.Load (c.Get k now).2.data k' = SyncMap.Load c.data k')
    ∧ (∀ e, SyncMap.Load c.data k = some e → now ≤ e.ExpiresAt →
        c.Get k now = ((e.Value, true), c)) := by
  refine ⟨MemoryCache.Get_of_Load_none c k now, ?_, ?_⟩
  · intro e h hx
    rw [MemoryCache.Get_of_expired c k now e h hx]
    refine ⟨rfl, ?_, ?_⟩
    · simp [SyncMap.Load_Delete]
    · intro k' hk
      simp [SyncMap.Load_Delete, hk]
  · intro e h hx
    exact MemoryCache.Get_of_valid c k now e h hx

/-- The three cases of the contract of `Get` on the cache holding `"k"` with expiry 10: the
absent key `"j"`, a read at 11 and a read at 10. -/
theorem Get_contract_witness :
    MemoryCache.Get ⟨[("k", (⟨some 7, 10⟩ : CacheEntry Nat))]⟩ "j" 11
        = ((none, false), ⟨[("k", ⟨some 7, 10⟩)]⟩)
      ∧ (MemoryCache.Get ⟨[("k", (⟨some 7, 10⟩ : CacheEntry Nat))]⟩ "k" 11).1 = (none, false)
      ∧ MemoryCache.Get ⟨[("k", (⟨some 7, 10⟩ : CacheEntry Nat))]⟩ "k" 10
        = ((some 7, true), ⟨[("k", ⟨some 7, 10⟩)]⟩) :=
  ⟨(Get_contract ⟨[("k", ⟨some 7, 10⟩)]⟩ "j" 11).1 (by decide),
   ((Get_contract ⟨[("k", ⟨some 7, 10⟩)]⟩ "k" 11).2.1 ⟨some 7, 10⟩ (by decide) (by decide)).1,
   (Get_contract ⟨[("k", ⟨some 7, 10⟩)]⟩ "k" 10).2.2 ⟨some 7, 10⟩ (by decide) (by decide)⟩

/-- C2: after `Set(k, v, t)` with `t > 0` at time `now`, and after any calls that are not
operations on `k`, a `Get(k)` at a time `now'` with `now ≤ now' < now + t` returns
`(v, true)`. -/
theorem Set_Get_roundtrip {α : Type} (c : MemoryCache α) (k : String) (v : Option α)
    (t now now' : Int) (ops : List (Op α)) (_ht : 0 < t) (_h1 : now ≤ now')
    (h2 : now' < now + t) (hops : ∀ op ∈ ops, op.onKey k = false) :
    ((runOps ops (c.Set k v t now)).Get k now').1 = (v, true) := by
  have hl : SyncMap.Load (runOps ops (c.Set k v t now)).data k = some ⟨v, now + t⟩ := by
    rw [runOps_Load ops _ k hops, MemoryCache.Load_Set]
    simp
  rw [MemoryCache.Get_of_valid _ k now' _ hl (le_of_lt h2)]

/-- The round trip on the empty cache: `Set("k", 7, 5)` at 10, a `Set` and a `Get` of
another key, then `Get("k")` at 14. -/
theorem Set_Get_roundtrip_witness :
    ((runOps [Op.set "j" (some 1) 1 11, Op.get "j" 13]
        ((NewMemoryCache : MemoryCache Nat).Set "k" (some 7) 5 10)).Get "k" 14).1 = (some 7, true) :=
  Set_Get_roundtrip NewMemoryCache "k" (some 7) 5 10 14
    [Op.set "j" (some 1) 1 11, Op.get "j" 13] (by decide) (by decide) (by decide) (by decide)

/-- C3, as stated, fails for `ttl = 0`: after `Set("k", 7, 0)` at time 10 a `Get("k")` at
the same clock reading 10 returns `(7, true)` and the entry stays in the cache. -/
theorem Set_zero_ttl_Get_same_instant_is_found :
    ((NewMemoryCache : MemoryCache Nat).Set "k" (some 7) 0 10).Get "k" 10
      = ((some 7, true), ⟨[("k", ⟨some 7, 10⟩)]⟩) := by
  decide

/-- C3 (amended): `Set(k, v, ttl)` with `ttl ≤ 0` at time `now` stores the entry
`(v, now + ttl)`. The next `Get(k)` at a time `now' ≥ now` returns not-found and removes
the entry when `ttl < 0` or `now' > now`; when `ttl = 0` and `now' = now` it returns
`(v, true)` and leaves the cache as it is. -/
theorem Set_nonpositive_ttl {α : Type} (c : MemoryCache α) (k : String) (v : Option α)
    (ttl now now' : Int) (httl : ttl ≤ 0) (hnow : now ≤ now') :
    SyncMap.Load (c.Set k v ttl now).data k = some ⟨v, now + ttl⟩
    ∧ (ttl < 0 ∨ now < now' →
        ((c.Set k v ttl now).Get k now').1 = (none, false)
        ∧ SyncMap.Load ((c.Set k v ttl now).Get k now').2.data k = none)
    ∧ (ttl = 0 → now' = now →
        (c.Set k v ttl now).Get k now' = ((v, true), c.Set k v ttl now)) := by
  have hl : SyncMap.Load (c.Set k v ttl now).data k = some ⟨v, now + ttl⟩ := by
    simp [MemoryCache.Load_Set]
  refine ⟨hl, ?_, ?_⟩
  · intro h
    have hx : (⟨v, now + ttl⟩ : CacheEntry α).ExpiresAt < now' := by
      show now + ttl < now'
      rcases h with h | h <;> omega
    rw [MemoryCache.Get_of_expired _ k now' _ hl hx]
    simp [SyncMap.Load_Delete]
  · intro h0 h1
    have hx : now' ≤ (⟨v, now + ttl⟩ : CacheEntry α).ExpiresAt := by
      show now' ≤ now + ttl
      omega
    rw [MemoryCache.Get_of_valid _ k now' _ hl hx]

/-- On the empty cache: `Set("k", 7, -1)` at 10 read at 10, and `Set("k", 7, 0)` at 10
read at 11, are both not-found. -/
theorem Set_nonpositive_ttl_witness :
    (((NewMemoryCache : MemoryCache Nat).Set "k" (some 7) (-1) 10).Get "k" 10).1 = (none, false)
      ∧ (((NewMemoryCache : MemoryCache Nat).Set "k" (some 7) 0 10).Get "k" 11).1 = (none, false) :=
  ⟨((Set_nonpositive_ttl NewMemoryCache "k" (some 7) (-1) 10 10 (by decide) (by decide)).2.1
      (Or.inl (by decide))).1,
   ((Set_nonpositive_ttl NewMemoryCache "k" (some 7) 0 10 11 (by decide) (by decide)).2.1
      (Or.inr (by decide))).1⟩

/-- C4: `Set(k, v1, t1)` followed by `Set(k, v2, t2)` at time `now` leaves exactly one
binding of `k`, with value `v2` and expiry `now + t2`; a `Get(k)` before that expiry
returns `(v2, true)`. -/
theorem Set_overwrite {α : Type} (c : MemoryCache α) (k : String) (v1 v2 : Option α)
    (t1 t2 now1 now : Int) :
    ((c.Set k v1 t1 now1).Set k v2 t2 now).data.filter (fun p => decide (p.1 = k))
        = [(k, ⟨v2, now + t2⟩)]
    ∧ SyncMap.Load ((c.Set k v1 t1 now1).Set k v2 t2 now).data k = some ⟨v2, now + t2⟩
    ∧ ∀ now', now' < now + t2 →
        (((c.Set k v1 t1 now1).Set k v2 t2 now).Get k now').1 = (v2, true) := by
  have hl : SyncMap.Load ((c.Set k v1 t1 now1).Set k v2 t2 now).data k
      = some ⟨v2, now + t2⟩ := by
    simp [MemoryCache.Load_Set]
  refine ⟨?_, hl, ?_⟩
  · simp [MemoryCache.Set, SyncMap.Store, List.filter_cons, SyncMap.filter_key_Delete, Add]
  · intro now' h
    rw [MemoryCache.Get_of_valid _ k now' _ hl (le_of_lt h)]

/-- Overwriting `"k"` on the empty cache: 7 with TTL 5 at 10, then 8 with TTL 3 at 11,
read at 13. -/
theorem Set_overwrite_witness :
    ((((NewMemoryCache : MemoryCache Nat).Set "k" (some 7) 5 10).Set "k" (some 8) 3 11).Get "k" 13).1
      = (some 8, true) :=
  (Set_overwrite NewMemoryCache "k" (some 7) (some 8) 5 3 10 11).2.2 13 (by decide)

/-- C7: after `Delete(k)` a `Get(k)` at any time returns not-found, every binding of a
different key is as before, a cache without `k` is left exactly unchanged, and a second
`Delete(k)` changes nothing. -/
theorem Delete_contract {α : Type} (c : MemoryCache α) (k : String) :
    (∀ now, (c.Delete k).Get k now = ((none, false), c.Delete k))
    ∧ (∀ k', k' ≠ k → SyncMap.Load (c.Delete k).data k' = SyncMap.Load c.data k')
    ∧ (∀ p, p.1 ≠ k → (p ∈ (c.Delete k).data ↔ p ∈ c.data))
    ∧ (SyncMap.Load c.data k = none → c.Delete k = c)
    ∧ (c.Delete k).Delete k = c.Delete k := by
  refine ⟨?_, ?_, ?_, ?_, ?_⟩
  · intro now
    apply MemoryCache.Get_of_Load_none
    simp [MemoryCache.Delete, SyncMap.Load_Delete]
  · intro k' hk
    simp [MemoryCache.Delete, SyncMap.Load_Delete, hk]
  · intro p hp
    simp [MemoryCache.Delete, SyncMap.Delete, List.mem_filter, hp]
  · intro h
    simp [MemoryCache.Delete, SyncMap.Delete_of_Load_none c.data k h]
  · simp [MemoryCache.Delete, SyncMap.Delete_Delete]

/-- Deleting `"k"` from a cache holding `"j"` and `"k"` keeps `"j"`, and deleting the
absent `"z"` leaves the cache unchanged. -/
theorem Delete_contract_witness :
    SyncMap.Load (MemoryCache.Delete
        ⟨[("j", (⟨some 1, 5⟩ : CacheEntry Nat)), ("k", ⟨some 7, 10⟩)]⟩ "k").data "j"
        = SyncMap.Load [("j", (⟨some 1, 5⟩ : CacheEntry Nat)), ("k", ⟨some 7, 10⟩)] "j"
      ∧ MemoryCache.Delete ⟨[("j", (⟨some 1, 5⟩ : CacheEntry Nat)), ("k", ⟨some 7, 10⟩)]⟩ "z"
        = ⟨[("j", ⟨some 1, 5⟩), ("k", ⟨some 7, 10⟩)]⟩ :=
  ⟨(Delete_contract ⟨[("j", ⟨some 1, 5⟩), ("k", ⟨some 7, 10⟩)]⟩ "k").2.1 "j" (by decide),
   (Delete_contract ⟨[("j", ⟨some 1, 5⟩), ("k", ⟨some 7, 10⟩)]⟩ "z").2.2.2.1 (by decide)⟩

/-- C5, as stated, fails: the sweep reads the clock once for every entry it visits, so it
need not happen at one instant. On a cache holding `"x"` (expiry 10) and `"y"` (expiry
11), with the reading 10 at the visit of `"x"` and 12 at the visit of `"y"`, the sweep
keeps `"x"` and removes `"y"`, whose expiry had not passed at the first reading; no
instant `now` makes the removed entries exactly those with `expires_at` earlier than
`now`. -/
theorem CleanupExpired_advancing_clock_fits_no_instant :
    MemoryCache.CleanupExpired
        ⟨[("x", (⟨some 1, 10⟩ : CacheEntry Nat)), ("y", ⟨some 2, 11⟩)]⟩
        (fun i => if i = 0 then 10 else 12) = ⟨[("x", ⟨some 1, 10⟩)]⟩
      ∧ After 10 11 = false
      ∧ ¬ ∃ now : Int, ∀ k e,
          SyncMap.Load [("x", (⟨some 1, 10⟩ : CacheEntry Nat)), ("y", ⟨some 2, 11⟩)] k = some e →
          (SyncMap.Load (MemoryCache.CleanupExpired
              ⟨[("x", (⟨some 1, 10⟩ : CacheEntry Nat)), ("y", ⟨some 2, 11⟩)]⟩
              (fun i => if i = 0 then 10 else 12)).data k = none ↔ e.ExpiresAt < now) := by
  have hres : MemoryCache.CleanupExpired
      ⟨[("x", (⟨some 1, 10⟩ : CacheEntry Nat)), ("y", ⟨some 2, 11⟩)]⟩
      (fun i => if i = 0 then 10 else 12) = ⟨[("x", ⟨some 1, 10⟩)]⟩ := by
    decide
  refine ⟨hres, by decide, ?_⟩
  rintro ⟨now, h⟩
  rw [hres] at h
  have hx := h "x" ⟨some 1, 10⟩ (by decide)
  have hy := h "y" ⟨some 2, 11⟩ (by decide)
  have hx' : ¬ (10 : Int) < now := fun x => by
    have := hx.mpr x
    revert this
    decide
  have hy' : (11 : Int) < now := hy.mp (by decide)
  omega

/-- C5 (amended): `CleanupExpired` takes one clock reading for every entry it visits.
For every cache state and every clock: the entry at position `i` of a cache with
distinct keys is removed exactly when the reading at its visit is after its
`expires_at` and is kept with its value and expiry otherwise; an entry whose
`expires_at` is earlier than every reading is removed, an entry whose `expires_at` is
not earlier than any reading is kept, no entry is added or changed, and a removed entry
has an `expires_at` earlier than some reading; a `Get` at a time `now` at or after all
readings, of a key not expired at `now`, still returns its value with `found = true`.
When every reading is the same instant `now`, the sweep removes exactly the entries with
`expires_at` earlier than `now` and keeps every other entry as it is. -/
theorem CleanupExpired_sweep {α : Type} (c : MemoryCache α) (clock : Nat → Int) :
    ((c.data.map Prod.fst).Nodup → ∀ (i : Nat) (h : i < c.data.length),
        SyncMap.Load (c.CleanupExpired clock).data (c.data.get ⟨i, h⟩).1
          = if After (clock i) (c.data.get ⟨i, h⟩).2.ExpiresAt then none
            else some (c.data.get ⟨i, h⟩).2)
    ∧ (∀ k e, SyncMap.Load c.data k = some e → (∀ i, e.ExpiresAt < clock i) →
        SyncMap.Load (c.CleanupExpired clock).data k = none)
    ∧ (∀ k e, SyncMap.Load c.data k = some e → (∀ i, clock i ≤ e.ExpiresAt) →
        SyncMap.Load (c.CleanupExpired clock).data k = some e)
    ∧ (∀ k e, SyncMap.Load (c.CleanupExpired clock).data k = some e →
        SyncMap.Load c.data k = some e)
    ∧ (∀ k e, SyncMap.Load c.data k = some e →
        SyncMap.Load (c.CleanupExpired clock).data k = none → ∃ i, e.ExpiresAt < clock i)
    ∧ (∀ k e now, SyncMap.Load c.data k = some e → (∀ i, clock i ≤ now) →
        now ≤ e.ExpiresAt → ((c.CleanupExpired clock).Get k now).1 = (e.Value, true))
    ∧ (∀ now k, SyncMap.Load (c.CleanupExpired (fun _ => now)).data k
        = (SyncMap.Load c.data k).filter (fun e => !After now e.ExpiresAt))
    ∧ (∀ now k e, SyncMap.Load c.data k = some e → e.ExpiresAt < now →
        SyncMap.Load (c.CleanupExpired (fun _ => now)).data k = none)
    ∧ (∀ now k e, SyncMap.Load c.data k = some e → now ≤ e.ExpiresAt →
        SyncMap.Load (c.CleanupExpired (fun _ => now)).data k = some e
        ∧ ((c.CleanupExpired (fun _ => now)).Get k now).1 = (e.Value, true))
    ∧ (∀ now k, SyncMap.Load c.data k = none →
        SyncMap.Load (c.CleanupExpired (fun _ => now)).data k = none) := by
  refine ⟨?_, ?_, ?_, ?_, ?_, ?_, ?_, ?_, ?_, ?_⟩
  · intro hc i h
    exact MemoryCache.Load_CleanupExpired_get c clock hc i h
  · intro k e h hx
    exact MemoryCache.Load_CleanupExpired_removed c clock k e h hx
  · intro k e h hv
    exact MemoryCache.Load_CleanupExpired_kept c clock k e h hv
  · intro k e h
    exact MemoryCache.Load_CleanupExpired_sub c clock k e h
  · intro k e h hnone
    by_contra hno
    have hv : ∀ i, clock i ≤ e.ExpiresAt := by
      intro i
      by_contra hi
      exact hno ⟨i, not_le.mp hi⟩
    rw [MemoryCache.Load_CleanupExpired_kept c clock k e h hv] at hnone
    cases hnone
  · intro k e now h hclock hv
    rw [MemoryCache.Get_of_valid _ k now e
      (MemoryCache.Load_CleanupExpired_kept c clock k e h
        (fun i => le_trans (hclock i) hv)) hv]
  · intro now k
    exact MemoryCache.Load_CleanupExpired_at c now k
  · intro now k e h hx
    exact MemoryCache.Load_CleanupExpired_removed c _ k e h (fun _ => hx)
  · intro now k e h hx
    have hk := MemoryCache.Load_CleanupExpired_kept c (fun _ => now) k e h (fun _ => hx)
    refine ⟨hk, ?_⟩
    rw [MemoryCache.Get_of_valid _ k now e hk hx]
  · intro now k h
    rw [MemoryCache.Load_CleanupExpired_at, h]
    rfl

/-- On a cache holding `"x"` (expiry 10), `"y"` (expiry 11) and `"z"` (expiry 20), swept
with the readings 10, 12, 12, ...: `"y"`, at position 1, is removed because the second
reading 12 is after 11; `"z"` is still read at 12 after that sweep; and the sweep with
every reading 12 removes `"x"`. -/
theorem CleanupExpired_sweep_witness :
    SyncMap.Load (MemoryCache.CleanupExpired
        ⟨[("x", (⟨some 1, 10⟩ : CacheEntry Nat)), ("y", ⟨some 2, 11⟩), ("z", ⟨some 3, 20⟩)]⟩
        (fun i => if i = 0 then 10 else 12)).data "y" = none
      ∧ ((MemoryCache.CleanupExpired
        ⟨[("x", (⟨some 1, 10⟩ : CacheEntry Nat)), ("y", ⟨some 2, 11⟩), ("z", ⟨some 3, 20⟩)]⟩
        (fun i => if i = 0 then 10 else 12)).Get "z" 12).1 = (some 3, true)
      ∧ SyncMap.Load (MemoryCache.CleanupExpired
        ⟨[("x", (⟨some 1, 10⟩ : CacheEntry Nat)), ("y", ⟨some 2, 11⟩), ("z", ⟨some 3, 20⟩)]⟩
        (fun _ => 12)).data "x" = none :=
  ⟨(CleanupExpired_sweep
      ⟨[("x", ⟨some 1, 10⟩), ("y", ⟨some 2, 11⟩), ("z", ⟨some 3, 20⟩)]⟩
      (fun i => if i = 0 then 10 else 12)).1 (by decide) 1 (by decide),
   (CleanupExpired_sweep
      ⟨[("x", ⟨some 1, 10⟩), ("y", ⟨some 2, 11⟩), ("z", ⟨some 3, 20⟩)]⟩
      (fun i => if i = 0 then 10 else 12)).2.2.2.2.2.1
      "z" ⟨some 3, 20⟩ 12 (by decide) (fun i => by by_cases h : i = 0 <;> simp [h])
      (by decide),
   (CleanupExpired_sweep
      ⟨[("x", ⟨some 1, 10⟩), ("y", ⟨some 2, 11⟩), ("z", ⟨some 3, 20⟩)]⟩
      (fun _ => 0)).2.2.2.2.2.2.2.1 12 "x" ⟨some 1, 10⟩ (by decide) (by decide)⟩

/-- C6: `Get(k)` at time `now` returns the same `(value, found)` whether or not
`CleanupExpired` ran at time `now` just before it, and the sweep keeps every entry that
`Get` returns as found; the same holds for a sweep whose clock readings are all at or
before `now`. -/
theorem CleanupExpired_transparent {α : Type} (c : MemoryCache α) (k : String) (now : Int) :
    ((c.CleanupExpired (fun _ => now)).Get k now).1 = (c.Get k now).1
    ∧ (∀ e, SyncMap.Load c.data k = some e → (c.Get k now).1.2 = true →
        SyncMap.Load (c.CleanupExpired (fun _ => now)).data k = some e)
    ∧ (∀ clock : Nat → Int, (∀ i, clock i ≤ now) →
        ((c.CleanupExpired clock).Get k now).1 = (c.Get k now).1) := by
  have key : ∀ clock : Nat → Int, (∀ i, clock i ≤ now) →
      ((c.CleanupExpired clock).Get k now).1 = (c.Get k now).1 := by
    intro clock hclock
    cases h : SyncMap.Load c.data k with
    | none =>
      have h' : SyncMap.Load (c.CleanupExpired clock).data k = none := by
        cases h' : SyncMap.Load (c.CleanupExpired clock).data k with
        | none => rfl
        | some e' =>
          rw [MemoryCache.Load_CleanupExpired_sub c _ k e' h'] at h
          cases h
      rw [MemoryCache.Get_of_Load_none _ k now h', MemoryCache.Get_of_Load_none _ k now h]
    | some e =>
      by_cases hexp : e.ExpiresAt < now
      · rw [MemoryCache.Get_of_expired c k now e h hexp]
        cases h' : SyncMap.Load (c.CleanupExpired clock).data k with
        | none => rw [MemoryCache.Get_of_Load_none _ k now h']
        | some e' =>
          have he : e' = e := by
            have := MemoryCache.Load_CleanupExpired_sub c _ k e' h'
            rw [h] at this
            exact (Option.some.inj this).symm
          subst he
          rw [MemoryCache.Get_of_expired _ k now e' h' hexp]
      · have hv : now ≤ e.ExpiresAt := not_lt.mp hexp
        have h' := MemoryCache.Load_CleanupExpired_kept c clock k e h
          (fun i => le_trans (hclock i) hv)
        rw [MemoryCache.Get_of_valid _ k now e h' hv, MemoryCache.Get_of_valid c k now e h hv]
  refine ⟨key _ (fun _ => le_refl now), ?_, key⟩
  intro e h hfound
  by_cases hexp : e.ExpiresAt < now
  · rw [MemoryCache.Get_of_expired c k now e h hexp] at hfound
    cases hfound
  · exact MemoryCache.Load_CleanupExpired_kept c _ k e h (fun _ => not_lt.mp hexp)

/-- On a cache with an expired and a valid entry, the sweep with readings 11, 12, 12, ...
does not change what `Get("c")` returns at 12, and the sweep at 12 keeps `"c"`. -/
theorem CleanupExpired_transparent_witness :
    ((MemoryCache.CleanupExpired
        ⟨[("a", (⟨some 1, 10⟩ : CacheEntry Nat)), ("c", ⟨some 3, 20⟩)]⟩
        (fun i => if i = 0 then 11 else 12)).Get "c" 12).1
        = (MemoryCache.Get ⟨[("a", (⟨some 1, 10⟩ : CacheEntry Nat)), ("c", ⟨some 3, 20⟩)]⟩
            "c" 12).1
      ∧ SyncMap.Load (MemoryCache.CleanupExpired
        ⟨[("a", (⟨some 1, 10⟩ : CacheEntry Nat)), ("c", ⟨some 3, 20⟩)]⟩
        (fun _ => 12)).data "c" = some ⟨some 3, 20⟩ :=
  ⟨(CleanupExpired_transparent ⟨[("a", ⟨some 1, 10⟩), ("c", ⟨some 3, 20⟩)]⟩ "c" 12).2.2
      (fun i => if i = 0 then 11 else 12) (fun i => by by_cases h : i = 0 <;> simp [h]),
   (CleanupExpired_transparent ⟨[("a", ⟨some 1, 10⟩), ("c", ⟨some 3, 20⟩)]⟩ "c" 12).2.1
      ⟨some 3, 20⟩ (by decide) (by decide)⟩

/-- C8: after any finite sequence of `Set` calls on a new cache, `Clear()` leaves a cache
with no entries, and `Get` of every key that was set returns not-found at any time. -/
theorem Clear_empties {α : Type} (calls : List (SetArgs α)) :
    (setAll calls NewMemoryCache).Clear = ⟨[]⟩
    ∧ ∀ a ∈ calls, ∀ now,
        (setAll calls NewMemoryCache).Clear.Get a.key now = ((none, false), ⟨[]⟩) := by
  have h : (setAll calls (NewMemoryCache : MemoryCache α)).Clear = ⟨[]⟩ := by
    have := MemoryCache.Clear_data (setAll calls (NewMemoryCache : MemoryCache α))
    cases hc : (setAll calls (NewMemoryCache : MemoryCache α)).Clear with
    | mk d =>
      rw [hc] at this
      simp only at this
      rw [this]
  refine ⟨h, ?_⟩
  intro a _ now
  rw [h]
  rfl

/-- Two `Set` calls on a new cache, then `Clear`, then `Get` of the second key at 11. -/
theorem Clear_empties_witness :
    (setAll [(⟨"a", some 1, 5, 10⟩ : SetArgs Nat), ⟨"b", some 2, 100, 10⟩]
        NewMemoryCache).Clear.Get "b" 11 = ((none, false), ⟨[]⟩) :=
  (Clear_empties [(⟨"a", some 1, 5, 10⟩ : SetArgs Nat), ⟨"b", some 2, 100, 10⟩]).2
    ⟨"b", some 2, 100, 10⟩ (by simp) 11

/-- C10: `Set` fixes the expiry of the entry at `now + ttl`; every binding found in the
cache after a `Get`, `Delete`, `Clear` or `CleanupExpired` (with any clock readings) was
there before with the same value and the same `expires_at`; a `Get` that returns
`found = true` leaves the cache exactly as it was, and any `Get(k)` leaves the binding
of every other key as it was. -/
theorem entries_immutable {α : Type} (c : MemoryCache α) :
    (∀ k v ttl now, SyncMap.Load (c.Set k v ttl now).data k = some ⟨v, now + ttl⟩)
    ∧ (∀ k now k' e, SyncMap.Load (c.Get k now).2.data k' = some e →
        SyncMap.Load c.data k' = some e)
    ∧ (∀ k k' e, SyncMap.Load (c.Delete k).data k' = some e → SyncMap.Load c.data k' = some e)
    ∧ (∀ k' e, SyncMap.Load c.Clear.data k' = some e → SyncMap.Load c.data k' = some e)
    ∧ (∀ clock k' e, SyncMap.Load (c.CleanupExpired clock).data k' = some e →
        SyncMap.Load c.data k' = some e)
    ∧ (∀ k now, (c.Get k now).1.2 = true → (c.Get k now).2 = c)
    ∧ (∀ k now k', k' ≠ k →
        SyncMap.Load (c.Get k now).2.data k' = SyncMap.Load c.data k') := by
  refine ⟨?_, ?_, ?_, ?_, ?_, ?_, ?_⟩
  · intro k v ttl now
    simp [MemoryCache.Load_Set]
  · intro k now k' e h
    by_cases hk : k' = k
    · subst hk
      unfold MemoryCache.Get at h
      split at h
      · exact h
      · split at h
        · simp [SyncMap.Load_Delete] at h
        · exact h
    · rw [MemoryCache.Load_Get c k k' now hk] at h
      exact h
  · intro k k' e h
    simp only [MemoryCache.Delete, SyncMap.Load_Delete] at h
    split at h
    · cases h
    · exact h
  · intro k' e h
    rw [MemoryCache.Clear_data] at h
    cases h
  · intro clock k' e h
    exact MemoryCache.Load_CleanupExpired_sub c clock k' e h
  · intro k now h
    unfold MemoryCache.Get at h ⊢
    split
    · rfl
    · rename_i e he
      simp only [he] at h
      split
      · rename_i hexp
        simp [hexp] at h
      · rfl
  · intro k now k' hk
    exact MemoryCache.Load_Get c k k' now hk

/-- On a cache holding `"a"` (expiry 10) and `"c"` (expiry 20): the evicting
`Get("a")` at 12 leaves `"c"` with value 3 and expiry 20, and the successful
`Get("c")` at 12 leaves the cache unchanged. -/
theorem entries_immutable_witness :
    SyncMap.Load (MemoryCache.Get
        ⟨[("a", (⟨some 1, 10⟩ : CacheEntry Nat)), ("c", ⟨some 3, 20⟩)]⟩ "a" 12).2.data "c"
        = SyncMap.Load [("a", (⟨some 1, 10⟩ : CacheEntry Nat)), ("c", ⟨some 3, 20⟩)] "c"
      ∧ (MemoryCache.Get ⟨[("a", (⟨some 1, 10⟩ : CacheEntry Nat)), ("c", ⟨some 3, 20⟩)]⟩
          "c" 12).2 = ⟨[("a", ⟨some 1, 10⟩), ("c", ⟨some 3, 20⟩)]⟩ :=
  ⟨(entries_immutable ⟨[("a", ⟨some 1, 10⟩), ("c", ⟨some 3, 20⟩)]⟩).2.2.2.2.2.2
      "a" 12 "c" (by decide),
   (entries_immutable ⟨[("a", ⟨some 1, 10⟩), ("c", ⟨some 3, 20⟩)]⟩).2.2.2.2.2.1
      "c" 12 (by decide)⟩

/-! ## Concurrent calls -/

/-- The three steps of a `Get` taken with no other goroutine in between are the method
`MemoryCache.Get`. -/
theorem GetPc.steps_eq_Get {α : Type} (c : MemoryCache α) (key : String) (now : Int) :
    (Race.run ⟨key, none, 0, c.data, GetPc.load, SetPc.ret⟩
        [(Tid.getter, now), (Tid.getter, now), (Tid.getter, now)])
      = ⟨key, none, 0, (c.Get key now).2.data,
          GetPc.ret (c.Get key now).1.1 (c.Get key now).1.2, SetPc.ret⟩ := by
  simp only [Race.run, List.foldl, Race.step, MemoryCache.Get]
  cases h : SyncMap.Load c.data key with
  | none => simp [GetPc.step, h]
  | some e =>
    by_cases hexp : After now e.ExpiresAt = true
    · simp [GetPc.step, h, hexp]
    · simp [GetPc.step, h, hexp]

/-- The two steps of a `Set` taken with no other goroutine in between are the method
`MemoryCache.Set`. -/
theorem SetPc.steps_eq_Set {α : Type} (c : MemoryCache α) (key : String) (value : Option α)
    (ttl now : Int) (g : GetPc α) :
    (Race.run ⟨key, value, ttl, c.data, g, SetPc.now⟩ [(Tid.setter, now), (Tid.setter, now)])
      = ⟨key, value, ttl, (c.Set key value ttl now).data, g, SetPc.ret⟩ := by
  simp [Race.run, Race.step, SetPc.step, MemoryCache.Set]

/-- The lost update in general: when `Get(key)` has loaded an expired entry and a
`Set(key, value, ttl)` runs before its delete, both calls return and `key` is unbound,
although the `Set` stored an entry with expiry `now + ttl`. -/
theorem Race.run_lost_update {α : Type} (m : SyncMap α) (key : String) (value : Option α)
    (ttl now : Int) (e : CacheEntry α) (h : SyncMap.Load m key = some e)
    (hx : e.ExpiresAt < now) :
    (Race.run ⟨key, value, ttl, m, GetPc.load, SetPc.now⟩
        [(Tid.getter, now), (Tid.getter, now), (Tid.setter, now), (Tid.setter, now),
          (Tid.getter, now)]).getPc = GetPc.ret none false
      ∧ (Race.run ⟨key, value, ttl, m, GetPc.load, SetPc.now⟩
        [(Tid.getter, now), (Tid.getter, now), (Tid.setter, now), (Tid.setter, now),
          (Tid.getter, now)]).setPc = SetPc.ret
      ∧ SyncMap.Load (Race.run ⟨key, value, ttl, m, GetPc.load, SetPc.now⟩
        [(Tid.getter, now), (Tid.getter, now), (Tid.setter, now), (Tid.setter, now),
          (Tid.getter, now)]).data key = none := by
  have hexp : After now e.ExpiresAt = true := by simpa [After] using hx
  simp [Race.run, Race.step, GetPc.step, SetPc.step, h, hexp, SyncMap.Load_Delete]

/-- C9 fails on the code: the cache holds `"k"` with expiry 5, the clock reads 10, one
goroutine calls `Get("k")` and another `Set("k", 8, 100)`. When the `Set` runs between
the load and the delete of the `Get`, both calls return and the cache is empty: the
entry stored by the completed `Set` is gone and a later `Get("k")` at 11 finds nothing.
Run one after the other, in either order, the two calls leave `"k"` bound to
`(8, 110)`. -/
theorem Get_eviction_loses_concurrent_Set :
    Race.run ⟨"k", some 8, 100, [("k", (⟨some 7, 5⟩ : CacheEntry Nat))], GetPc.load, SetPc.now⟩
        [(Tid.getter, 10), (Tid.getter, 10), (Tid.setter, 10), (Tid.setter, 10),
          (Tid.getter, 10)]
        = ⟨"k", some 8, 100, [], GetPc.ret none false, SetPc.ret⟩
      ∧ MemoryCache.Get (⟨[]⟩ : MemoryCache Nat) "k" 11 = ((none, false), ⟨[]⟩)
      ∧ ((MemoryCache.Get ⟨[("k", (⟨some 7, 5⟩ : CacheEntry Nat))]⟩ "k" 10).2.Set
          "k" (some 8) 100 10).data = [("k", ⟨some 8, 110⟩)]
      ∧ (MemoryCache.Set ⟨[("k", (⟨some 7, 5⟩ : CacheEntry Nat))]⟩ "k" (some 8) 100 10).Get
          "k" 10 = ((some 8, true), ⟨[("k", ⟨some 8, 110⟩)]⟩) := by
  decide

end cache
